import Mathlib

/-!
Verification of the request-routing core (`starlette/routing.py`).

The development shallowly embeds the routing module: compiled path
templates are token lists (literal runs interleaved with named captures),
matching is an anchored, greedy, backtracking matcher over `List Char`
(mirroring the behaviour of the compiled regular expressions the source
builds in `compile_path`), and the stateful dispatch of `Router.__call__`
is a pure decision function producing an explicit step value.

The converter registry (`starlette.convertors`) is not part of the
sources under review; following the specification, converters are
modelled by their contract: a set of accepted capture strings together
with a decode/encode pair that round-trips, where the accepted strings
are exactly the encodable ones.  With that contract the string-typed and
rest-of-path converters used by the routing code act as identity codecs.
-/

namespace Routing

/-- Characters written via codes so that brace characters never appear
inside string literals. -/
def lbrace : Char := '\x7b'

def rbrace : Char := '\x7d'

/-- First result of an option-valued function over a list, mirroring a
Python loop that returns on the first success and otherwise falls through. -/
def firstSome (f : α → Option β) : List α → Option β
  | [] => none
  | a :: l =>
    match f a with
    | some b => some b
    | none => firstSome f l

/-- Association-list lookup (Python dictionary access by key). -/
def lookupA (k : String) : List (String × String) → Option String
  | [] => none
  | (k', v) :: l => if k' = k then some v else lookupA k l

/-- Boolean prefix test on character lists. -/
def isPre : List Char → List Char → Bool
  | [], _ => true
  | _ :: _, [] => false
  | a :: as, b :: bs => a = b && isPre as bs

/-- Python `old in s` substring test. -/
def containsSub (pat : List Char) : List Char → Bool
  | [] => pat.isEmpty
  | c :: cs => isPre pat (c :: cs) || containsSub pat cs

/-- Python dictionary update with a single key: overwrite in place if the
key is present, otherwise append. -/
def updOne (d : List (String × String)) (kv : String × String) : List (String × String) :=
  if (d.map Prod.fst).contains kv.1 then
    d.map (fun kv' => if kv'.1 = kv.1 then (kv'.1, kv.2) else kv')
  else d ++ [kv]

/-- Python `dict.update`: fold single-key updates over the new entries. -/
def updBatch (d new : List (String × String)) : List (String × String) :=
  new.foldl updOne d

/-- Modelled from the spec: the converter registry (the `convertors`
module is outside the code under review).  Only the converters the
routing code relies on are modelled: the default string converter
(capture fragment `[^/]+`) and the rest-of-path converter (capture
fragment `.*`).  Per the converter contract, the accepted capture
strings are exactly the encodable ones, so decode and encode are
identities on them. -/
inductive Conv where
  | str
  | path
  deriving DecidableEq, Repr

/-- Which characters the converter's capture fragment may consume. -/
def Conv.runChar : Conv → Char → Bool
  | .str, c => c != '/'
  | .path, _ => true

/-- Minimal capture length: `[^/]+` needs one character, `.*` none. -/
def Conv.minLen : Conv → Nat
  | .str => 1
  | .path => 0

/-- A compiled path template, as produced by `compile_path`: literal
character runs interleaved with named captures. -/
inductive Tok where
  | lit (l : List Char)
  | param (n : String) (cv : Conv)
  deriving DecidableEq, Repr

/-- Names of the capture groups, in template order (the keys of
`param_convertors`). -/
def tokNames : List Tok → List String
  | [] => []
  | Tok.lit _ :: t => tokNames t
  | Tok.param n _ :: t => n :: tokNames t

/-- The candidate (capture, remainder) splits a greedy capture group
tries, longest first — the backtracking order of the compiled regex. -/
def capsList (cv : Conv) (s : List Char) : List (List Char × List Char) :=
  let r := s.takeWhile cv.runChar
  let rest := s.drop r.length
  (List.range (r.length + 1 - cv.minLen)).map
    (fun i => (r.take (r.length - i), r.drop (r.length - i) ++ rest))

/-- Anchored match of a compiled template against a path, returning the
captures (`groupdict`) in group order; `none` when the regex does not
match.  Captures are decoded by their converters, which are identities
in the modelled registry. -/
def matchToks : List Tok → List Char → Option (List (String × String))
  | [], s => if s.isEmpty then some [] else none
  | Tok.lit l :: rest, s =>
    if isPre l s then matchToks rest (s.drop l.length) else none
  | Tok.param n cv :: rest, s =>
    firstSome
      (fun pr => (matchToks rest pr.2).map (fun ps => (n, String.mk pr.1) :: ps))
      (capsList cv s)

/-- The `path_format` artifact of `compile_path`: the template with type
annotations stripped, placeholders kept. -/
def placeholderOf (n : String) : List Char := lbrace :: n.data ++ [rbrace]

def formatToks : List Tok → List Char
  | [] => []
  | Tok.lit l :: t => l ++ formatToks t
  | Tok.param n _ :: t => placeholderOf n ++ formatToks t

/-- Python `s.replace(old, new)`: scan left to right, replacing
non-overlapping occurrences; replaced text is not rescanned.  The fuel
argument (instantiated with the subject's length) makes the recursion
structural so that concrete instances evaluate by reduction. -/
def replaceAllF (pat new : List Char) : Nat → List Char → List Char
  | 0, s => s
  | _, [] => []
  | f + 1, c :: cs =>
    if isPre pat (c :: cs) && !pat.isEmpty then
      new ++ replaceAllF pat new f ((c :: cs).drop pat.length)
    else
      c :: replaceAllF pat new f cs

def replaceAll (pat new s : List Char) : List Char :=
  replaceAllF pat new s.length s

/-- The `replace_params` helper: substitute each supplied parameter whose
placeholder occurs in the path, dropping it from the parameter dict;
parameters whose placeholder is absent are returned as the remainder.
Converter encoding (`to_string`) is the identity in the modelled
registry. -/
def replParams : List Char → List (String × String) → List Char × List (String × String)
  | fmt, [] => (fmt, [])
  | fmt, (k, v) :: rest =>
    if containsSub (placeholderOf k) fmt then
      replParams (replaceAll (placeholderOf k) v.data fmt) rest
    else
      let (fmt', rem) := replParams fmt rest
      (fmt', (k, v) :: rem)

/-- The ASGI scope fields the routing code reads and writes.  Endpoints
and sub-applications are identified by abstract numeric identifiers;
`hasApp` models `"app" in scope` (running inside a surrounding
application), `hasRouter` the `"router"` back-reference. -/
structure Scope where
  type : String
  path : String
  method : String
  headers : List (String × String)
  root_path : String := ""
  app_root_path : Option String := none
  path_params : List (String × String) := []
  endpoint : Option Nat := none
  hasApp : Bool := false
  hasRouter : Bool := false
  deriving DecidableEq, Repr

/-- The `child_scope` dictionary a successful match contributes; absent
keys are `none`. -/
structure ChildScope where
  endpoint : Option Nat := none
  path_params : Option (List (String × String)) := none
  root_path : Option String := none
  app_root_path : Option String := none
  path : Option String := none
  deriving DecidableEq, Repr

/-- `scope.update(child_scope)`: merge the contributed keys into the
scope, overwriting present ones. -/
def applyChild (sc : Scope) (cs : ChildScope) : Scope :=
  { sc with
    endpoint := cs.endpoint.orElse (fun _ => sc.endpoint)
    path_params := cs.path_params.getD sc.path_params
    root_path := cs.root_path.getD sc.root_path
    app_root_path := cs.app_root_path.orElse (fun _ => sc.app_root_path)
    path := cs.path.getD sc.path }

/-- The `Match` enumeration. -/
inductive MatchLv where
  | noMatch
  | partMatch
  | fullMatch
  deriving DecidableEq, Repr

/-- `URLPath`: a concrete path tagged with a protocol (and, for
host-gated nodes, a host). -/
structure URLPath where
  path : String
  protocol : String := ""
  host : String := ""
  deriving DecidableEq, Repr

/-- The routing tree.  `route`/`wsroute` are leaf routes (compiled
template, endpoint identity, declared name, stored methods set for HTTP
routes); `mount` holds the prefix template (already `rstrip("/")`-ed at
construction), optional declared name, the nested node list when built
from routes (`none` when wrapping an opaque sub-application), and the
sub-application's identity; `host` is analogous, gating on the Host
header instead of the path. -/
inductive RouteNode where
  | route (toks : List Tok) (endpointId : Nat) (nm : String) (methods : Option (List String))
  | wsroute (toks : List Tok) (endpointId : Nat) (nm : String)
  | mount (preToks : List Tok) (nm : Option String) (sub : Option (List RouteNode)) (appId : Nat)
  | host (hostToks : List Tok) (nm : Option String) (sub : Option (List RouteNode)) (appId : Nat)

/-- Python `method.upper()` on a method name, character-wise. -/
def upperStr (s : String) : String := String.mk (s.data.map Char.toUpper)

/-- `Route.__init__`'s treatment of the `methods` argument: a plain
function or method endpoint with no methods defaults to `["GET"]`; a
declared list is upper-cased and implicitly gains `"HEAD"` when it
contains `"GET"`; a class endpoint with no methods stores no set. -/
def storedMethods (isFuncEndpoint : Bool) (methods : Option (List String)) :
    Option (List String) :=
  let m1 := if isFuncEndpoint && methods.isNone then some ["GET"] else methods
  m1.map (fun l =>
    let u := l.map upperStr
    if u.contains "GET" && !u.contains "HEAD" then u ++ ["HEAD"] else u)

/-- `Route(path, endpoint, methods=...)` at the level of the embedding:
the compiled template plus the stored methods set. -/
def mkRoute (toks : List Tok) (endpointId : Nat) (nm : String)
    (isFuncEndpoint : Bool) (methods : Option (List String)) : RouteNode :=
  RouteNode.route toks endpointId nm (storedMethods isFuncEndpoint methods)

/-- Truthiness of `self.methods` in `if self.methods and ...`: `None`
and the empty set are both falsy. -/
def methodsTruthy : Option (List String) → Bool
  | none => false
  | some l => !l.isEmpty

/-- The mount's compiled pattern: `self.path + "/{path:path}"`. -/
def mountToks (preToks : List Tok) : List Tok :=
  preToks ++ [Tok.lit ['/'], Tok.param "path" Conv.path]

/-- `Route.matches`. -/
def routeMatches (toks : List Tok) (endpointId : Nat) (methods : Option (List String))
    (sc : Scope) : MatchLv × ChildScope :=
  if sc.type = "http" then
    match matchToks toks sc.path.data with
    | some mp =>
      let cs : ChildScope :=
        { endpoint := some endpointId, path_params := some (updBatch sc.path_params mp) }
      if methodsTruthy methods && !(methods.getD []).contains sc.method then
        (MatchLv.partMatch, cs)
      else
        (MatchLv.fullMatch, cs)
    | none => (MatchLv.noMatch, {})
  else (MatchLv.noMatch, {})

/-- `WebSocketRoute.matches`. -/
def wsrouteMatches (toks : List Tok) (endpointId : Nat) (sc : Scope) :
    MatchLv × ChildScope :=
  if sc.type = "websocket" then
    match matchToks toks sc.path.data with
    | some mp =>
      (MatchLv.fullMatch,
        { endpoint := some endpointId, path_params := some (updBatch sc.path_params mp) })
    | none => (MatchLv.noMatch, {})
  else (MatchLv.noMatch, {})

/-- `Mount.matches`: match the prefix pattern, split off the captured
rest as the new residual path, and extend the accumulated root path by
the consumed portion. -/
def mountMatches (preToks : List Tok) (appId : Nat) (sc : Scope) :
    MatchLv × ChildScope :=
  if sc.type = "http" ∨ sc.type = "websocket" then
    match matchToks (mountToks preToks) sc.path.data with
    | some mp =>
      let rest := (lookupA "path" mp).getD ""
      let remaining := "/" ++ rest
      let matched := String.mk (sc.path.data.take (sc.path.data.length - remaining.data.length))
      let mp' := mp.filter (fun kv => kv.1 ≠ "path")
      (MatchLv.fullMatch,
        { path_params := some (updBatch sc.path_params mp')
          app_root_path := some (sc.app_root_path.getD sc.root_path)
          root_path := some (sc.root_path ++ matched)
          path := some remaining
          endpoint := some appId })
    | none => (MatchLv.noMatch, {})
  else (MatchLv.noMatch, {})

/-- `Host.matches`: gate on the Host header's hostname, port stripped. -/
def hostMatches (hostToks : List Tok) (appId : Nat) (sc : Scope) :
    MatchLv × ChildScope :=
  if sc.type = "http" ∨ sc.type = "websocket" then
    let hostHdr := ((lookupA "host" sc.headers).getD "").data.takeWhile (fun c => c != ':')
    match matchToks hostToks hostHdr with
    | some mp =>
      (MatchLv.fullMatch,
        { path_params := some (updBatch sc.path_params mp), endpoint := some appId })
    | none => (MatchLv.noMatch, {})
  else (MatchLv.noMatch, {})

/-- `BaseRoute.matches`, dispatching on the node kind. -/
def RouteNode.matches : RouteNode → Scope → MatchLv × ChildScope
  | RouteNode.route toks eid _ ms, sc => routeMatches toks eid ms sc
  | RouteNode.wsroute toks eid _, sc => wsrouteMatches toks eid sc
  | RouteNode.mount preToks _ _ appId, sc => mountMatches preToks appId sc
  | RouteNode.host hostToks _ _ appId, sc => hostMatches hostToks appId sc

/-- What dispatching to a node does, at the granularity the claims
need: raise a typed 405 (`HTTPException`) when running under a
surrounding application, send a plain 405 response when standalone, or
hand control to the endpoint / sub-application. -/
inductive CallOutcome where
  | raise405
  | send405
  | runApp (id : Nat)
  deriving DecidableEq, Repr

/-- `Route.__call__` / the other nodes' `__call__`. -/
def RouteNode.call : RouteNode → Scope → CallOutcome
  | RouteNode.route _ eid _ ms, sc =>
    if methodsTruthy ms && !(ms.getD []).contains sc.method then
      if sc.hasApp then CallOutcome.raise405 else CallOutcome.send405
    else CallOutcome.runApp eid
  | RouteNode.wsroute _ eid _, _ => CallOutcome.runApp eid
  | RouteNode.mount _ _ _ appId, _ => CallOutcome.runApp appId
  | RouteNode.host _ _ _ appId, _ => CallOutcome.runApp appId

/-- The `Router`: registered nodes in registration order plus the
trailing-slash policy flag.  The default handler and lifespan node are
handled symbolically by the dispatch step below. -/
structure Router where
  routes : List RouteNode
  redirect_slashes : Bool := true

/-- First node (with its index and contribution) whose match level
equals `lv`, scanning in registration order. -/
def findLevel (lv : MatchLv) (sc : Scope) : List RouteNode → Option (Nat × ChildScope)
  | [] => none
  | r :: rs =>
    if (r.matches sc).1 = lv then some (0, (r.matches sc).2)
    else (findLevel lv sc rs).map (fun p => (p.1 + 1, p.2))

/-- Python `path.rstrip("/")`: drop every trailing slash. -/
def rstripSlash (p : String) : String :=
  String.mk ((p.data.reverse.dropWhile (fun c => c = '/')).reverse)

/-- The toggled-slash variant computed by the redirect fallback:
`rstrip("/")` when the path ends in a slash, append one otherwise. -/
def toggledPath (p : String) : String :=
  if p.data.getLast? = some '/' then rstripSlash p else p ++ "/"

/-- What `Router.__call__` decides to do with a request: dispatch to the
node at an index with the merged scope (on a full or fallback-partial
match), send a redirect, delegate to the lifespan node, or invoke the
default handler (the not-found responder / websocket close). -/
inductive RouterStep where
  | toFull (i : Nat) (sc : Scope)
  | toPart (i : Nat) (sc : Scope)
  | toRedirect (target : String)
  | toLifespan
  | toDefault
  deriving DecidableEq, Repr

/-- The dispatch algorithm of `Router.__call__`.  The `"router"`
back-reference write does not influence matching and is left out of the
scope value. -/
def routerCall (r : Router) (sc : Scope) : RouterStep :=
  match findLevel MatchLv.fullMatch sc r.routes with
  | some (i, cs) => RouterStep.toFull i (applyChild sc cs)
  | none =>
    match findLevel MatchLv.partMatch sc r.routes with
    | some (i, cs) => RouterStep.toPart i (applyChild sc cs)
    | none =>
      if sc.type = "http" && r.redirect_slashes then
        if toggledPath sc.path ≠ "" &&
            r.routes.any (fun rt =>
              (rt.matches { sc with path := toggledPath sc.path }).1 ≠ MatchLv.noMatch) then
          RouterStep.toRedirect (toggledPath sc.path)
        else if sc.type = "lifespan" then RouterStep.toLifespan else RouterStep.toDefault
      else if sc.type = "lifespan" then RouterStep.toLifespan else RouterStep.toDefault

/-- Reverse lookup (`url_path_for`), written on a fuel argument so that
the mutual recursion between a node and its nested node list is
structural; `none` models the `NoMatchFound` exception.  The input is
either one node or a node list tried in registration order. -/
def upfAux : Nat → Sum RouteNode (List RouteNode) → String → List (String × String) →
    Option URLPath
  | 0, _, _, _ => none
  | _ + 1, Sum.inl (RouteNode.route toks _ nm _), name, params =>
    if name = nm ∧ (params.map Prod.fst).toFinset = (tokNames toks).toFinset then
      some { path := String.mk (replParams (formatToks toks) params).1, protocol := "http" }
    else none
  | _ + 1, Sum.inl (RouteNode.wsroute toks _ nm), name, params =>
    if name = nm ∧ (params.map Prod.fst).toFinset = (tokNames toks).toFinset then
      some { path := String.mk (replParams (formatToks toks) params).1, protocol := "websocket" }
    else none
  | f + 1, Sum.inl (RouteNode.mount preToks nm sub _), name, params =>
    let fmt := formatToks (mountToks preToks)
    if nm.isSome ∧ some name = nm ∧ (params.map Prod.fst).contains "path" then
      let params' := updOne params ("path", String.mk (((lookupA "path" params).getD "").data.dropWhile (fun c => c = '/')))
      let (p, rem) := replParams fmt params'
      if rem.isEmpty then some { path := String.mk p } else none
    else if nm.isNone ∨ isPre ((nm.getD "") ++ ":").data name.data then
      let remainingName :=
        match nm with
        | none => name
        | some mn => String.mk (name.data.drop (mn.data.length + 1))
      let pathKwarg := lookupA "path" params
      let params' := updOne params ("path", "")
      let (pfx, rem) := replParams fmt params'
      let rem' :=
        match pathKwarg with
        | some v => updOne rem ("path", v)
        | none => rem
      (upfAux f (Sum.inr (sub.getD [])) remainingName rem').map
        (fun u => { path := rstripSlash (String.mk pfx) ++ u.path, protocol := u.protocol })
    else none
  | f + 1, Sum.inl (RouteNode.host hostToks nm sub _), name, params =>
    let hfmt := formatToks hostToks
    if nm.isSome ∧ some name = nm ∧ (params.map Prod.fst).contains "path" then
      let pathVal := (lookupA "path" params).getD ""
      let params' := params.filter (fun kv => kv.1 ≠ "path")
      let (h, rem) := replParams hfmt params'
      if rem.isEmpty then some { path := pathVal, host := String.mk h } else none
    else if nm.isNone ∨ isPre ((nm.getD "") ++ ":").data name.data then
      let remainingName :=
        match nm with
        | none => name
        | some mn => String.mk (name.data.drop (mn.data.length + 1))
      let (h, rem) := replParams hfmt params
      (upfAux f (Sum.inr (sub.getD [])) remainingName rem).map
        (fun u => { path := u.path, protocol := u.protocol, host := String.mk h })
    else none
  | _ + 1, Sum.inr [], _, _ => none
  | f + 1, Sum.inr (r :: rs), name, params =>
    match upfAux f (Sum.inl r) name params with
    | some u => some u
    | none => upfAux f (Sum.inr rs) name params

mutual

/-- Structural size of a node, used as recursion fuel for reverse
lookups. -/
def nodeFuel : RouteNode → Nat
  | RouteNode.route .. => 1
  | RouteNode.wsroute .. => 1
  | RouteNode.mount _ _ none _ => 1
  | RouteNode.mount _ _ (some subs) _ => 1 + listFuel subs
  | RouteNode.host _ _ none _ => 1
  | RouteNode.host _ _ (some subs) _ => 1 + listFuel subs

def listFuel : List RouteNode → Nat
  | [] => 1
  | r :: rs => nodeFuel r + listFuel rs

end

/-- `BaseRoute.url_path_for` on one node. -/
def RouteNode.url_path_for (r : RouteNode) (name : String)
    (params : List (String × String)) : Option URLPath :=
  upfAux (nodeFuel r + 1) (Sum.inl r) name params

/-- `Router.url_path_for`: try every node in registration order, first
success wins, exhaustion raises `NoMatchFound` (`none`). -/
def Router.url_path_for (r : Router) (name : String)
    (params : List (String × String)) : Option URLPath :=
  upfAux (listFuel r.routes + 1) (Sum.inr r.routes) name params

/-- Lifecycle messages sent on the channel by the lifespan node. -/
inductive LMsg where
  | startupComplete
  | startupFailed (detail : String)
  | shutdownComplete
  deriving DecidableEq, Repr

/-- Observable behaviour of one `lifespan` request: messages sent, how
many of the startup/shutdown handlers were executed (handlers always run
as a prefix of the registration order), and the re-raised failure, if
any. -/
structure LTrace where
  sent : List LMsg
  startupRan : Nat
  shutdownRan : Nat
  raised : Option String
  deriving DecidableEq, Repr

/-- Run handlers sequentially in registration order: report how many
executed and the first failure, after which no further handler runs.
A handler is modelled by its outcome (`none` = success). -/
def runHandlers : List (Option String) → Nat × Option String
  | [] => (0, none)
  | none :: rest =>
    ((runHandlers rest).1 + 1, (runHandlers rest).2)
  | some d :: _ => (1, some d)

/-- `Lifespan.__call__` after a well-formed handshake (startup message,
then — when startup succeeded — a shutdown message): startup handlers in
registration order, `startup.failed` + re-raise on the first failure,
otherwise `startup.complete`, then the shutdown handlers and
`shutdown.complete`; a shutdown-handler failure propagates before the
completion message is sent. -/
def lifespanCall (startupH shutdownH : List (Option String)) : LTrace :=
  match runHandlers startupH with
  | (ranS, some d) =>
    { sent := [LMsg.startupFailed d], startupRan := ranS, shutdownRan := 0, raised := some d }
  | (ranS, none) =>
    match runHandlers shutdownH with
    | (ranD, some d) =>
      { sent := [LMsg.startupComplete], startupRan := ranS, shutdownRan := ranD,
        raised := some d }
    | (ranD, none) =>
      { sent := [LMsg.startupComplete, LMsg.shutdownComplete], startupRan := ranS,
        shutdownRan := ranD, raised := none }

/-- Character lists without brace characters.  Literal template segments
and parameter names produced by `compile_path` never contain a full
placeholder; captured values are brace-free whenever the matched path
contains no braces. -/
def braceFreeL (l : List Char) : Prop := lbrace ∉ l ∧ rbrace ∉ l

def braceFreeS (s : String) : Prop := braceFreeL s.data

instance (l : List Char) : Decidable (braceFreeL l) := by
  unfold braceFreeL
  infer_instance

instance (s : String) : Decidable (braceFreeS s) := by
  unfold braceFreeS
  infer_instance

/-- Literal segments of a compiled template. -/
def litsOf : List Tok → List (List Char)
  | [] => []
  | Tok.lit l :: t => l :: litsOf t
  | Tok.param _ _ :: t => litsOf t

/-- Keys of an association list (Python `dict` key view). -/
def domOf (ps : List (String × String)) : List String := ps.map Prod.fst

/-- Well-formedness guaranteed by `compile_path` for every compiled
template: capture-group names are unique (the regex engine rejects
duplicate group names), identifiers contain no braces (the placeholder
syntax only admits identifier characters), and literal segments contain
no brace characters. -/
def WFT (toks : List Tok) : Prop :=
  (tokNames toks).Nodup ∧ (∀ l ∈ litsOf toks, braceFreeL l) ∧
    (∀ n ∈ tokNames toks, braceFreeS n)

instance (toks : List Tok) : Decidable (WFT toks) := by
  unfold WFT
  infer_instance

/-- The template text with the parameters of `done` substituted and the
remaining placeholders kept — the intermediate states of
`replace_params`. -/
def renderPartial (done : List (String × String)) : List Tok → List Char
  | [] => []
  | Tok.lit l :: t => l ++ renderPartial done t
  | Tok.param n _ :: t =>
    (match lookupA n done with
     | some v => v.data
     | none => placeholderOf n) ++ renderPartial done t

/-- A successful anchored match decomposes the subject into the
template's literal segments interleaved with the captured values, in
order. -/
inductive Interleaves : List Tok → List (String × String) → List Char → Prop where
  | nil : Interleaves [] [] []
  | lit (l : List Char) {t ps s} :
      Interleaves t ps s → Interleaves (Tok.lit l :: t) ps (l ++ s)
  | par (n : String) (cv : Conv) (v : List Char) {t ps s} :
      Interleaves t ps s →
      Interleaves (Tok.param n cv :: t) ((n, String.mk v) :: ps) (v ++ s)

/-! ### Concrete fixtures used to instantiate the theorems -/

/-- A plain http GET request at the given path. -/
def scHttp (p : String) : Scope :=
  { type := "http", path := p, method := "GET", headers := [] }

/-- A websocket request at the given path. -/
def scWs (p : String) : Scope :=
  { type := "websocket", path := p, method := "", headers := [] }

/-- The compiled template of `"/users/{id}"`. -/
def toksUsersId : List Tok := [Tok.lit "/users/".data, Tok.param "id" Conv.str]

/-- The compiled template of `"/{a}/{b}"`. -/
def toksAB : List Tok :=
  [Tok.lit ['/'], Tok.param "a" Conv.str, Tok.lit ['/'], Tok.param "b" Conv.str]

/-- The request path `"/{b}/x"` — its first segment is the literal text
of the second placeholder. -/
def cexPath : String := String.mk ['/', lbrace, 'b', rbrace, '/', 'x']

/-- The capture `"{b}"` extracted for parameter `a` from `cexPath`. -/
def cexVal : String := String.mk [lbrace, 'b', rbrace]

/-- A `"/users"` route accepting only POST (partial on GET). -/
def rPostOnly : RouteNode := RouteNode.route [Tok.lit "/users".data] 1 "p" (some ["POST"])

/-- A `"/users"` route accepting GET/HEAD. -/
def rGetUsers : RouteNode := RouteNode.route [Tok.lit "/users".data] 0 "users" (some ["GET", "HEAD"])

/-- A router where a later full match must beat an earlier partial one. -/
def routerPrec : Router := { routes := [rPostOnly, rGetUsers] }

/-- A router whose only node matches partially on GET. -/
def routerPart : Router := { routes := [rPostOnly] }

/-- A websocket route at `"/users"`. -/
def wsUsers : RouteNode := RouteNode.wsroute [Tok.lit "/users".data] 0 "ws"

/-- A router holding only the websocket route. -/
def routerWs : Router := { routes := [wsUsers] }

/-- A router holding only the GET route, for redirect behaviour. -/
def routerGet : Router := { routes := [rGetUsers] }

/-- A mount at prefix `"/api"` named `"api"`, wrapping a nested route
`"/items"` named `"items"`. -/
def mApiFix : RouteNode :=
  RouteNode.mount [Tok.lit "/api".data] (some "api")
    (some [RouteNode.route [Tok.lit "/items".data] 2 "items" none]) 9

/-- A router holding only the `"/api"` mount. -/
def routerApi : Router := { routes := [mApiFix] }

/-! Basic properties of the string helpers -/

theorem isPre_iff {l s : List Char} : isPre l s = true ↔ ∃ t, s = l ++ t := by
  induction l generalizing s with
  | nil => simp [isPre]
  | cons a as ih =>
    cases s with
    | nil => simp [isPre]
    | cons b bs =>
      simp only [isPre, Bool.and_eq_true, decide_eq_true_eq, ih, List.cons_append,
        List.cons.injEq]
      constructor
      · rintro ⟨rfl, t, rfl⟩
        exact ⟨t, rfl, rfl⟩
      · rintro ⟨t, rfl, rfl⟩
        exact ⟨rfl, t, rfl⟩

theorem isPre_append (l t : List Char) : isPre l (l ++ t) = true :=
  isPre_iff.mpr ⟨t, rfl⟩

theorem containsSub_iff {pat s : List Char} :
    containsSub pat s = true ↔ ∃ a b, s = a ++ pat ++ b := by
  induction s with
  | nil =>
    simp only [containsSub, List.isEmpty_iff]
    constructor
    · rintro rfl
      exact ⟨[], [], rfl⟩
    · rintro ⟨a, b, h⟩
      rcases List.append_eq_nil.mp h.symm with ⟨h1, h2⟩
      exact (List.append_eq_nil.mp h1).2
  | cons c cs ih =>
    simp only [containsSub, Bool.or_eq_true, isPre_iff, ih]
    constructor
    · rintro (⟨t, ht⟩ | ⟨a, b, rfl⟩)
      · exact ⟨[], t, by simp [ht]⟩
      · exact ⟨c :: a, b, rfl⟩
    · rintro ⟨a, b, h⟩
      cases a with
      | nil => exact Or.inl ⟨b, by simpa using h⟩
      | cons a0 as =>
        right
        obtain ⟨rfl, h2⟩ := List.cons.injEq .. ▸ h
        exact ⟨as, b, by simpa using h2⟩

/-! Evaluation rules for `replaceAll` (Python `str.replace`) -/

theorem replaceAllF_congr (pat new : List Char) :
    ∀ f₁ f₂ s, s.length ≤ f₁ → s.length ≤ f₂ →
      replaceAllF pat new f₁ s = replaceAllF pat new f₂ s := by
  intro f₁
  induction f₁ with
  | zero =>
    intro f₂ s h1 _
    have : s = [] := List.eq_nil_of_length_eq_zero (Nat.le_zero.mp h1)
    subst this
    cases f₂ <;> simp [replaceAllF]
  | succ f ih =>
    intro f₂ s h1 h2
    cases s with
    | nil => cases f₂ <;> simp [replaceAllF]
    | cons c cs =>
      cases f₂ with
      | zero => exact absurd h2 (by simp)
      | succ f₂' =>
        simp only [replaceAllF]
        have hl1 : cs.length + 1 ≤ f + 1 := by simpa using h1
        have hl2 : cs.length + 1 ≤ f₂' + 1 := by simpa using h2
        by_cases hc : (isPre pat (c :: cs) && !pat.isEmpty) = true
        · simp only [hc, if_true]
          have hpat : 1 ≤ pat.length := by
            rcases Bool.and_eq_true .. ▸ hc with ⟨-, hne⟩
            cases pat
            · simp at hne
            · simp
          have hd : ((c :: cs).drop pat.length).length = cs.length + 1 - pat.length := by
            simp
          refine congrArg (new ++ ·) (ih _ _ ?_ ?_) <;> rw [hd] <;> omega
        · simp only [hc, if_false]
          exact congrArg (c :: ·) (ih _ _ (by omega) (by omega))

theorem replaceAll_nil (pat new : List Char) : replaceAll pat new [] = [] := by
  simp [replaceAll, replaceAllF]

theorem replaceAll_cons (pat new : List Char) (c : Char) (cs : List Char) :
    replaceAll pat new (c :: cs) =
      if isPre pat (c :: cs) && !pat.isEmpty then
        new ++ replaceAll pat new ((c :: cs).drop pat.length)
      else
        c :: replaceAll pat new cs := by
  show replaceAllF pat new (cs.length + 1) (c :: cs) = _
  rw [replaceAllF]
  by_cases hc : (isPre pat (c :: cs) && !pat.isEmpty) = true
  · simp only [hc, if_true]
    refine congrArg (new ++ ·) (replaceAllF_congr pat new _ _ _ ?_ (Nat.le_refl _))
    have hpat : 1 ≤ pat.length := by
      rcases Bool.and_eq_true .. ▸ hc with ⟨-, hne⟩
      cases pat
      · simp at hne
      · simp
    simp only [List.length_drop, List.length_cons]
    omega
  · simp only [hc, if_false]
    rfl

/-- Scanning past a character that cannot start an occurrence of the
pattern. -/
theorem replaceAll_cons_skip {pat : List Char} (new : List Char) {c : Char} {cs : List Char}
    (h : isPre pat (c :: cs) = false) :
    replaceAll pat new (c :: cs) = c :: replaceAll pat new cs := by
  rw [replaceAll_cons, h]
  simp

/-- A segment without an opening brace is copied verbatim when the
pattern starts with one. -/
theorem replaceAll_append_bracefree {p seg x : List Char} (new : List Char)
    (hseg : lbrace ∉ seg) :
    replaceAll (lbrace :: p) new (seg ++ x) = seg ++ replaceAll (lbrace :: p) new x := by
  induction seg with
  | nil => rfl
  | cons c cs ih =>
    have hc : c ≠ lbrace := fun h => hseg (h ▸ List.mem_cons_self c cs)
    have hpre : isPre (lbrace :: p) (c :: (cs ++ x)) = false := by
      cases hi : isPre (lbrace :: p) (c :: (cs ++ x)) with
      | false => rfl
      | true =>
        obtain ⟨t, ht⟩ := isPre_iff.mp hi
        rw [List.cons_append] at ht
        injection ht with h1 _
        exact absurd h1 hc
    rw [List.cons_append, replaceAll_cons_skip new hpre,
      ih (fun h => hseg (List.mem_cons_of_mem c h))]
    simp

/-- An occurrence of the pattern itself is replaced and scanning resumes
after it. -/
theorem replaceAll_hit {pat : List Char} (new x : List Char) (hne : pat ≠ []) :
    replaceAll pat new (pat ++ x) = new ++ replaceAll pat new x := by
  cases pat with
  | nil => exact absurd rfl hne
  | cons a as =>
    rw [List.cons_append, replaceAll_cons]
    have hpre : isPre (a :: as) (a :: (as ++ x)) = true :=
      isPre_iff.mpr ⟨x, by simp⟩
    simp only [hpre, List.isEmpty_cons, Bool.not_false, Bool.and_self, if_true]
    congr 1
    have : (a :: (as ++ x)).drop (a :: as).length = x := by
      simp only [List.length_cons, List.drop_succ_cons]
      rw [List.drop_left]
    rw [this]

/-! Placeholders: identifier boundaries -/

theorem append_rbrace_eq {a x : List Char} :
    ∀ {b y : List Char}, a ++ rbrace :: x = b ++ rbrace :: y →
      rbrace ∉ a → rbrace ∉ b → a = b ∧ x = y := by
  induction a with
  | nil =>
    intro b y h _ hb
    cases b with
    | nil =>
      injection h with _ h2
      exact ⟨rfl, h2⟩
    | cons d bs =>
      injection h with h1 _
      exact absurd (h1 ▸ List.mem_cons_self d bs) hb
  | cons c as ih =>
    intro b y h ha hb
    cases b with
    | nil =>
      injection h with h1 _
      exact absurd (h1 ▸ List.mem_cons_self c as) ha
    | cons d bs =>
      injection h with h1 h2
      obtain ⟨he, hx⟩ := ih h2 (fun hm => ha (List.mem_cons_of_mem c hm))
        (fun hm => hb (List.mem_cons_of_mem d hm))
      exact ⟨by rw [h1, he], hx⟩

theorem placeholder_isPre {n m : String} {x : List Char}
    (h : isPre (placeholderOf n) (placeholderOf m ++ x) = true)
    (hn : braceFreeS n) (hm : braceFreeS m) : n = m := by
  obtain ⟨t, ht⟩ := isPre_iff.mp h
  simp only [placeholderOf, List.cons_append, List.append_assoc, List.singleton_append] at ht
  injection ht with _ h2
  obtain ⟨he, _⟩ := append_rbrace_eq h2 hm.2 hn.2
  obtain ⟨nd⟩ := n
  obtain ⟨md⟩ := m
  exact congrArg String.mk (by simpa using he.symm)

theorem replaceAll_ph_skip {n m : String} (v : List Char) {x : List Char}
    (hn : braceFreeS n) (hm : braceFreeS m) (hne : n ≠ m) :
    replaceAll (placeholderOf n) v (placeholderOf m ++ x) =
      placeholderOf m ++ replaceAll (placeholderOf n) v x := by
  have hpre : isPre (placeholderOf n) (placeholderOf m ++ x) = false := by
    cases hi : isPre (placeholderOf n) (placeholderOf m ++ x) with
    | false => rfl
    | true => exact absurd (placeholder_isPre hi hn hm) hne
  have hfree : lbrace ∉ m.data ++ [rbrace] := by
    intro hmem
    rcases List.mem_append.mp hmem with h | h
    · exact hm.1 h
    · simp only [List.mem_singleton] at h
      exact absurd h (by decide)
  have hstep : placeholderOf m ++ x = lbrace :: ((m.data ++ [rbrace]) ++ x) := by
    simp [placeholderOf]
  rw [hstep] at hpre ⊢
  rw [replaceAll_cons_skip v hpre]
  have hph : placeholderOf n = lbrace :: (n.data ++ [rbrace]) := by
    simp [placeholderOf]
  rw [hph, replaceAll_append_bracefree v hfree, ← hph]
  simp [placeholderOf]

/-! Association-list lemmas -/

theorem lookupA_eq_none {k : String} : ∀ {l : List (String × String)},
    k ∉ domOf l → lookupA k l = none := by
  intro l
  induction l with
  | nil => intro _; rfl
  | cons kv rest ih =>
    intro h
    have hk : kv.1 ≠ k := by
      intro he
      exact h (by simp [domOf, he])
    simp only [lookupA]
    rw [if_neg hk]
    exact ih (fun hm => h (by simp [domOf] at hm ⊢; exact Or.inr hm))

theorem lookupA_append_right {k : String} {a b : List (String × String)}
    (h : k ∉ domOf a) : lookupA k (a ++ b) = lookupA k b := by
  induction a with
  | nil => rfl
  | cons kv rest ih =>
    have hk : kv.1 ≠ k := by
      intro he
      exact h (by simp [domOf, he])
    simp only [List.cons_append, lookupA]
    rw [if_neg hk]
    exact ih (fun hm => h (by simp [domOf] at hm ⊢; exact Or.inr hm))

theorem lookupA_append_left {k : String} : ∀ {a : List (String × String)}
    (b : List (String × String)), lookupA k a ≠ none →
      lookupA k (a ++ b) = lookupA k a := by
  intro a
  induction a with
  | nil => intro b h; exact absurd rfl h
  | cons kv rest ih =>
    intro b h
    rw [List.cons_append]
    by_cases hk : kv.1 = k
    · simp only [lookupA, if_pos hk]
    · simp only [lookupA, if_neg hk] at h ⊢
      exact ih b h

theorem lookupA_mem {k v : String} : ∀ {l : List (String × String)},
    lookupA k l = some v → (k, v) ∈ l := by
  intro l
  induction l with
  | nil => intro h; cases h
  | cons kv rest ih =>
    intro h
    simp only [lookupA] at h
    by_cases hk : kv.1 = k
    · rw [if_pos hk] at h
      injection h with h
      have hkv : kv = (k, v) := by
        obtain ⟨k', v'⟩ := kv
        simp_all
      rw [hkv]
      exact List.mem_cons_self _ _
    · rw [if_neg hk] at h
      exact List.mem_cons_of_mem kv (ih h)

theorem lookupA_head {k v : String} (rest : List (String × String)) :
    lookupA k ((k, v) :: rest) = some v := by
  simp [lookupA]

theorem lookupA_none_iff {k : String} {l : List (String × String)} :
    lookupA k l = none ↔ k ∉ domOf l := by
  induction l with
  | nil => simp [lookupA, domOf]
  | cons kv rest ih =>
    simp only [lookupA, domOf, List.map_cons, List.mem_cons]
    by_cases hk1 : kv.1 = k
    · simp [hk1]
    · simp only [if_neg hk1, ih]
      constructor
      · intro h hor
        rcases hor with he | hm
        · exact hk1 he.symm
        · exact h hm
      · intro h hm
        exact h (Or.inr hm)

theorem lookupA_append_single {m k v : String} {done : List (String × String)}
    (h : m ≠ k) : lookupA m (done ++ [(k, v)]) = lookupA m done := by
  cases hl : lookupA m done with
  | some w => rw [lookupA_append_left _ (by rw [hl]; exact fun hc => by cases hc), hl]
  | none =>
    rw [lookupA_append_right (lookupA_none_iff.mp hl)]
    simp [lookupA, h, Ne.symm h]

/-! The `replace_params` substitution machinery -/

theorem renderPartial_congr {d1 d2 : List (String × String)} :
    ∀ {toks : List Tok}, (∀ n ∈ tokNames toks, lookupA n d1 = lookupA n d2) →
      renderPartial d1 toks = renderPartial d2 toks := by
  intro toks
  induction toks with
  | nil => intro _; rfl
  | cons tk t ih =>
    intro h
    cases tk with
    | lit l =>
      simp only [renderPartial, tokNames] at h ⊢
      rw [ih h]
    | param n cv =>
      simp only [renderPartial, tokNames] at h ⊢
      rw [h n (List.mem_cons_self n _), ih (fun m hm => h m (List.mem_cons_of_mem n hm))]

theorem replaceAll_ph_append_bracefree (k : String) (v : List Char) {seg x : List Char}
    (hseg : lbrace ∉ seg) :
    replaceAll (placeholderOf k) v (seg ++ x) = seg ++ replaceAll (placeholderOf k) v x := by
  have hph : placeholderOf k = lbrace :: (k.data ++ [rbrace]) := by
    simp [placeholderOf]
  rw [hph, replaceAll_append_bracefree v hseg, ← hph]

theorem replaceAll_renderPartial_noOcc {k : String} (v : List Char) :
    ∀ {toks : List Tok} {done : List (String × String)},
      k ∉ tokNames toks → braceFreeS k →
      (∀ l ∈ litsOf toks, braceFreeL l) → (∀ n ∈ tokNames toks, braceFreeS n) →
      (∀ kv ∈ done, braceFreeS kv.2) →
      replaceAll (placeholderOf k) v (renderPartial done toks) = renderPartial done toks := by
  intro toks
  induction toks with
  | nil =>
    intro done _ _ _ _ _
    exact replaceAll_nil _ _
  | cons tk t ih =>
    intro done hk hbk hlits hnames hdone
    cases tk with
    | lit l =>
      simp only [renderPartial]
      rw [replaceAll_ph_append_bracefree k v (hlits l (by simp [litsOf])).1]
      rw [ih hk hbk (fun l' hl' => hlits l' (by simp [litsOf, hl'])) hnames hdone]
    | param n cv =>
      have hkt : k ∉ tokNames t := fun h => hk (by simp [tokNames, h])
      have hkn : k ≠ n := fun h => hk (by simp [tokNames, h])
      have hnames' : ∀ m ∈ tokNames t, braceFreeS m :=
        fun m hm => hnames m (by simp [tokNames, hm])
      simp only [renderPartial]
      cases hl : lookupA n done with
      | some w =>
        have hw : braceFreeS w := hdone (n, w) (lookupA_mem hl)
        rw [replaceAll_ph_append_bracefree k v hw.1]
        rw [ih hkt hbk (fun l' hl' => hlits l' (by simp [litsOf, hl'])) hnames' hdone]
      | none =>
        rw [replaceAll_ph_skip v hbk (hnames n (by simp [tokNames])) hkn]
        rw [ih hkt hbk (fun l' hl' => hlits l' (by simp [litsOf, hl'])) hnames' hdone]

theorem replaceAll_renderPartial_hit {k : String} (v : String) :
    ∀ {toks : List Tok} {done : List (String × String)},
      (tokNames toks).Nodup →
      (∀ l ∈ litsOf toks, braceFreeL l) → (∀ n ∈ tokNames toks, braceFreeS n) →
      (∀ kv ∈ done, braceFreeS kv.2) →
      k ∈ tokNames toks → k ∉ domOf done →
      replaceAll (placeholderOf k) v.data (renderPartial done toks) =
        renderPartial (done ++ [(k, v)]) toks := by
  intro toks
  induction toks with
  | nil =>
    intro done _ _ _ _ hk _
    cases hk
  | cons tk t ih =>
    intro done hnd hlits hnames hdone hk hkd
    cases tk with
    | lit l =>
      simp only [renderPartial]
      rw [replaceAll_ph_append_bracefree k v.data (hlits l (by simp [litsOf])).1]
      rw [ih hnd (fun l' hl' => hlits l' (by simp [litsOf, hl'])) hnames hdone hk hkd]
    | param n cv =>
      have hnames' : ∀ m ∈ tokNames t, braceFreeS m :=
        fun m hm => hnames m (by simp [tokNames, hm])
      have hlits' : ∀ l' ∈ litsOf t, braceFreeL l' :=
        fun l' hl' => hlits l' (by simp [litsOf, hl'])
      have hnd' : (tokNames t).Nodup := by
        simp only [tokNames, List.nodup_cons] at hnd
        exact hnd.2
      simp only [renderPartial]
      cases hl : lookupA n done with
      | some w =>
        have hnk : k ≠ n := by
          intro he
          subst he
          exact hkd (by
            simp only [domOf, List.mem_map]
            exact ⟨(k, w), lookupA_mem hl, rfl⟩)
        have hw : braceFreeS w := hdone (n, w) (lookupA_mem hl)
        have hkt : k ∈ tokNames t := by
          rcases List.mem_cons.mp (by simpa [tokNames] using hk) with he | h
          · exact absurd he hnk
          · exact h
        rw [replaceAll_ph_append_bracefree k v.data hw.1]
        rw [ih hnd' hlits' hnames' hdone hkt hkd]
        rw [lookupA_append_left _ (by rw [hl]; exact fun hc => by cases hc), hl]
      | none =>
        by_cases hnk : n = k
        · subst hnk
          have hph : renderPartial done (Tok.param n cv :: t) =
              placeholderOf n ++ renderPartial done t := by
            simp [renderPartial, hl]
          have hnt : n ∉ tokNames t := by
            simp only [tokNames, List.nodup_cons] at hnd
            exact hnd.1
          rw [replaceAll_hit v.data _ (by simp [placeholderOf])]
          rw [replaceAll_renderPartial_noOcc v.data hnt
            (hnames n (by simp [tokNames])) hlits' hnames' hdone]
          rw [lookupA_append_right (lookupA_none_iff.mp hl), lookupA_head]
          congr 1
          exact (renderPartial_congr (fun m hm => lookupA_append_single
            (fun he => (List.nodup_cons.mp (by simpa [tokNames] using hnd)).1
              (he ▸ hm)))).symm
        · have hbn : braceFreeS n := hnames n (by simp [tokNames])
          have hbk : braceFreeS k := hnames k hk
          have hkt : k ∈ tokNames t := by
            rcases List.mem_cons.mp (by simpa [tokNames] using hk) with he | h
            · exact absurd he.symm hnk
            · exact h
          rw [replaceAll_ph_skip v.data hbk hbn (fun he => hnk he.symm)]
          rw [ih hnd' hlits' hnames' hdone hkt hkd]
          rw [lookupA_append_right (lookupA_none_iff.mp hl)]
          simp [lookupA, if_neg (Ne.symm hnk)]

theorem renderPartial_split {k : String} :
    ∀ {toks : List Tok} {done : List (String × String)},
      k ∈ tokNames toks → k ∉ domOf done →
      ∃ a b, renderPartial done toks = a ++ placeholderOf k ++ b := by
  intro toks
  induction toks with
  | nil =>
    intro done hk _
    cases hk
  | cons tk t ih =>
    intro done hk hkd
    cases tk with
    | lit l =>
      obtain ⟨a, b, hab⟩ := ih (by simpa [tokNames] using hk) hkd
      exact ⟨l ++ a, b, by simp [renderPartial, hab]⟩
    | param n cv =>
      by_cases hnk : n = k
      · subst hnk
        have hl : lookupA n done = none := lookupA_none_iff.mpr hkd
        exact ⟨[], renderPartial done t, by simp [renderPartial, hl]⟩
      · have hkt : k ∈ tokNames t := by
          rcases List.mem_cons.mp (by simpa [tokNames] using hk) with he | h
          · exact absurd he.symm hnk
          · exact h
        obtain ⟨a, b, hab⟩ := ih hkt hkd
        refine ⟨(match lookupA n done with
          | some v => v.data
          | none => placeholderOf n) ++ a, b, ?_⟩
        simp [renderPartial, hab]

theorem containsSub_renderPartial {k : String} {toks : List Tok}
    {done : List (String × String)} (hk : k ∈ tokNames toks) (hkd : k ∉ domOf done) :
    containsSub (placeholderOf k) (renderPartial done toks) = true := by
  obtain ⟨a, b, hab⟩ := renderPartial_split hk hkd
  exact containsSub_iff.mpr ⟨a, b, hab⟩

/-- The central invariant of `replace_params`: starting from a partially
substituted template and feeding the remaining parameters (distinct
keys, brace-free values, all of them template placeholders), every
parameter is substituted exactly at its own placeholder and nothing is
left over. -/
theorem replParams_render :
    ∀ (params : List (String × String)) (toks : List Tok) (done : List (String × String)),
      (tokNames toks).Nodup →
      (∀ l ∈ litsOf toks, braceFreeL l) → (∀ n ∈ tokNames toks, braceFreeS n) →
      (∀ kv ∈ done, braceFreeS kv.2) → (∀ kv ∈ params, braceFreeS kv.2) →
      (∀ x ∈ domOf params, x ∈ tokNames toks) →
      (domOf params).Nodup →
      (∀ x ∈ domOf params, x ∉ domOf done) →
      replParams (renderPartial done toks) params =
        (renderPartial (done ++ params) toks, []) := by
  intro params
  induction params with
  | nil =>
    intro toks done _ _ _ _ _ _ _ _
    simp [replParams]
  | cons kv rest ih =>
    intro toks done hnd hlits hnames hdone hvals hsub hpnd hdisj
    obtain ⟨k, v⟩ := kv
    have hcons : domOf ((k, v) :: rest) = k :: domOf rest := rfl
    rw [hcons] at hpnd
    obtain ⟨hknr, hrnd⟩ := List.nodup_cons.mp hpnd
    have hk : k ∈ tokNames toks := hsub k (by simp [domOf])
    have hkd : k ∉ domOf done := hdisj k (by simp [domOf])
    simp only [replParams, containsSub_renderPartial hk hkd, if_true]
    rw [replaceAll_renderPartial_hit v hnd hlits hnames hdone hk hkd]
    rw [ih toks (done ++ [(k, v)]) hnd hlits hnames
      (by
        intro kv' hkv'
        rcases List.mem_append.mp hkv' with h | h
        · exact hdone kv' h
        · simp only [List.mem_singleton] at h
          subst h
          exact hvals (k, v) (List.mem_cons_self _ _))
      (fun kv' hkv' => hvals kv' (List.mem_cons_of_mem _ hkv'))
      (fun x hx => hsub x (by simp [domOf] at hx ⊢; exact Or.inr hx))
      hrnd
      (by
        intro x hx hxd
        simp only [domOf, List.map_append, List.mem_append] at hxd
        rcases hxd with h | h
        · exact hdisj x (by simp [domOf] at hx ⊢; exact Or.inr hx) h
        · simp only [domOf, List.map_cons, List.map_nil, List.mem_singleton] at h
          subst h
          exact hknr hx)]
    rw [List.append_assoc]
    rfl

theorem renderPartial_empty : ∀ (toks : List Tok), renderPartial [] toks = formatToks toks := by
  intro toks
  induction toks with
  | nil => rfl
  | cons tk t ih =>
    cases tk with
    | lit l => simp [renderPartial, formatToks, ih]
    | param n cv => simp [renderPartial, formatToks, lookupA, ih]

/-- `replace_params` on a full, well-formed parameter set: every
parameter is consumed and the result is the rendered template. -/
theorem replParams_complete {toks : List Tok} {params : List (String × String)}
    (hwf : WFT toks) (hvals : ∀ kv ∈ params, braceFreeS kv.2)
    (hsub : ∀ x ∈ domOf params, x ∈ tokNames toks) (hpnd : (domOf params).Nodup) :
    replParams (formatToks toks) params = (renderPartial params toks, []) := by
  have := replParams_render params toks [] hwf.1 hwf.2.1 hwf.2.2
    (by intro kv h; cases h) hvals hsub hpnd (by intro x _ h; cases h)
  rw [renderPartial_empty] at this
  simpa using this

/-! Soundness of the anchored matcher -/

theorem firstSome_mem {f : α → Option β} {b : β} :
    ∀ {l : List α}, firstSome f l = some b → ∃ a ∈ l, f a = some b := by
  intro l
  induction l with
  | nil => intro h; cases h
  | cons a rest ih =>
    intro h
    simp only [firstSome] at h
    cases hf : f a with
    | some b' =>
      rw [hf] at h
      injection h with h
      exact ⟨a, List.mem_cons_self _ _, by rw [hf, h]⟩
    | none =>
      rw [hf] at h
      obtain ⟨a', ha', hfa'⟩ := ih h
      exact ⟨a', List.mem_cons_of_mem _ ha', hfa'⟩

theorem drop_takeWhile_length (p : Char → Bool) (l : List Char) :
    l.drop (l.takeWhile p).length = l.dropWhile p := by
  induction l with
  | nil => rfl
  | cons c cs ih =>
    by_cases hp : p c
    · simp [List.takeWhile_cons, List.dropWhile_cons, hp, ih]
    · simp [List.takeWhile_cons, List.dropWhile_cons, hp]

theorem capsList_split {cv : Conv} {s cap rem : List Char}
    (h : (cap, rem) ∈ capsList cv s) : cap ++ rem = s := by
  simp only [capsList, List.mem_map, List.mem_range] at h
  obtain ⟨i, _, he⟩ := h
  obtain ⟨h1, h2⟩ := Prod.mk.injEq .. ▸ he
  rw [← h1, ← h2]
  rw [← List.append_assoc, List.take_append_drop]
  calc s.takeWhile cv.runChar ++ s.drop (s.takeWhile cv.runChar).length
      = s.takeWhile cv.runChar ++ s.dropWhile cv.runChar := by
        rw [drop_takeWhile_length]
    _ = s := List.takeWhile_append_dropWhile _ _

theorem matchToks_sound : ∀ {toks : List Tok} {s : List Char} {ps : List (String × String)},
    matchToks toks s = some ps → Interleaves toks ps s := by
  intro toks
  induction toks with
  | nil =>
    intro s ps h
    simp only [matchToks] at h
    by_cases hs : s.isEmpty
    · rw [if_pos hs] at h
      injection h with h
      rw [List.isEmpty_iff.mp hs, ← h]
      exact Interleaves.nil
    · rw [if_neg hs] at h
      cases h
  | cons tk t ih =>
    intro s ps h
    cases tk with
    | lit l =>
      simp only [matchToks] at h
      by_cases hp : isPre l s = true
      · rw [if_pos hp] at h
        obtain ⟨x, rfl⟩ := isPre_iff.mp hp
        have hd : (l ++ x).drop l.length = x := List.drop_left l x
        rw [hd] at h
        exact Interleaves.lit l (ih h)
      · rw [if_neg hp] at h
        cases h
    | param n cv =>
      simp only [matchToks] at h
      obtain ⟨⟨cap, rem⟩, hmem, hf⟩ := firstSome_mem h
      cases hm : matchToks t rem with
      | none => rw [hm] at hf; cases hf
      | some tail =>
        rw [hm] at hf
        simp only [Option.map_some] at hf
        injection hf with hf
        rw [← hf, ← capsList_split hmem]
        exact Interleaves.par n cv cap (ih hm)

theorem interleaves_names : ∀ {toks : List Tok} {ps : List (String × String)}
    {s : List Char}, Interleaves toks ps s → domOf ps = tokNames toks := by
  intro toks ps s h
  induction h with
  | nil => rfl
  | lit l _ ih => simpa [tokNames] using ih
  | par n cv v _ ih => simpa [domOf, tokNames] using ih

theorem interleaves_render : ∀ {toks : List Tok} {ps : List (String × String)}
    {s : List Char}, Interleaves toks ps s → (tokNames toks).Nodup →
      ∀ pre, (∀ n ∈ tokNames toks, n ∉ domOf pre) →
        renderPartial (pre ++ ps) toks = s := by
  intro toks ps s h
  induction h with
  | nil =>
    intro _ _ _
    rfl
  | lit l hi ih =>
    intro hnd pre hpre
    simp only [renderPartial]
    rw [ih (by simpa [tokNames] using hnd) pre (by simpa [tokNames] using hpre)]
  | par n cv v hi ih =>
    rename_i t' ps' s'
    intro hnd pre hpre
    simp only [renderPartial]
    have hn : n ∉ domOf pre := hpre n (by simp [tokNames])
    rw [lookupA_append_right hn, lookupA_head]
    have hnd' : (tokNames t').Nodup ∧ n ∉ tokNames t' := by
      have := List.nodup_cons.mp (by simpa [tokNames] using hnd)
      exact ⟨this.2, this.1⟩
    have hassoc : pre ++ (n, String.mk v) :: ps' = (pre ++ [(n, String.mk v)]) ++ ps' := by
      rw [List.append_assoc]
      rfl
    rw [hassoc, ih hnd'.1 (pre ++ [(n, String.mk v)]) ?_]
    intro m hm
    simp only [domOf, List.map_append, List.mem_append]
    rintro (h1 | h2)
    · exact hpre m (by simp [tokNames, hm]) h1
    · simp only [domOf, List.map_cons, List.map_nil, List.mem_singleton] at h2
      subst h2
      exact hnd'.2 hm

theorem interleaves_append : ∀ {t1 t2 : List Tok} {ps : List (String × String)}
    {s : List Char}, Interleaves (t1 ++ t2) ps s →
      ∃ ps1 ps2 s1 s2, ps = ps1 ++ ps2 ∧ s = s1 ++ s2 ∧
        Interleaves t1 ps1 s1 ∧ Interleaves t2 ps2 s2 := by
  intro t1
  induction t1 with
  | nil =>
    intro t2 ps s h
    exact ⟨[], ps, [], s, rfl, rfl, Interleaves.nil, h⟩
  | cons tk t ih =>
    intro t2 ps s h
    cases tk with
    | lit l =>
      cases h with
      | lit _ h' =>
        obtain ⟨ps1, ps2, s1, s2, hps, hs, h1, h2⟩ := ih h'
        exact ⟨ps1, ps2, l ++ s1, s2, hps, by simp [hs], Interleaves.lit l h1, h2⟩
    | param n cv =>
      cases h with
      | par _ _ v h' =>
        obtain ⟨ps1, ps2, s1, s2, hps, hs, h1, h2⟩ := ih h'
        exact ⟨(n, String.mk v) :: ps1, ps2, v ++ s1, s2, by simp [hps], by simp [hs],
          Interleaves.par n cv v h1, h2⟩

/-! Dictionary-update lemmas -/

theorem updOne_append {d : List (String × String)} {kv : String × String}
    (h : kv.1 ∉ domOf d) : updOne d kv = d ++ [kv] := by
  have hc : (d.map Prod.fst).contains kv.1 = false := by
    simpa [domOf] using h
  simp only [updOne, hc]
  simp

theorem updBatch_append : ∀ {new d : List (String × String)},
    (∀ k ∈ domOf new, k ∉ domOf d) → (domOf new).Nodup →
      updBatch d new = d ++ new := by
  intro new
  induction new with
  | nil =>
    intro d _ _
    simp [updBatch]
  | cons kv rest ih =>
    intro d hdisj hnd
    have h1 : kv.1 ∉ domOf d := hdisj kv.1 (by simp [domOf])
    have hstep : updBatch d (kv :: rest) = updBatch (updOne d kv) rest := rfl
    rw [hstep, updOne_append h1]
    have hcons : domOf (kv :: rest) = kv.1 :: domOf rest := rfl
    rw [hcons] at hdisj hnd
    obtain ⟨hknr, hrnd⟩ := List.nodup_cons.mp hnd
    rw [ih ?_ hrnd]
    · simp
    · intro k hk
      simp only [domOf, List.map_append, List.mem_append]
      rintro (h | h)
      · exact hdisj k (List.mem_cons_of_mem _ hk) h
      · simp only [domOf, List.map_cons, List.map_nil, List.mem_singleton] at h
        subst h
        exact hknr hk

theorem updBatch_nil {new : List (String × String)} (hnd : (domOf new).Nodup) :
    updBatch [] new = new := by
  rw [updBatch_append (by intro k _ h; cases h) hnd]
  rfl

/-! Router dispatch: characterizing the first match at a level -/

theorem findLevel_some {lv : MatchLv} {sc : Scope} :
    ∀ {routes : List RouteNode} {i : Nat} {rt : RouteNode},
      routes[i]? = some rt → (rt.matches sc).1 = lv →
      (∀ rt' ∈ routes.take i, (rt'.matches sc).1 ≠ lv) →
      findLevel lv sc routes = some (i, (rt.matches sc).2) := by
  intro routes
  induction routes with
  | nil =>
    intro i rt h _ _
    simp at h
  | cons r rs ih =>
    intro i rt h hlv hmin
    cases i with
    | zero =>
      simp only [List.getElem?_cons_zero] at h
      injection h with h
      subst h
      simp [findLevel, hlv]
    | succ i =>
      have h0 : (r.matches sc).1 ≠ lv :=
        hmin r (by simp [List.take_succ_cons])
      simp only [List.getElem?_cons_succ] at h
      have hmin' : ∀ rt' ∈ rs.take i, (rt'.matches sc).1 ≠ lv := by
        intro rt' hrt'
        exact hmin rt' (by simp [List.take_succ_cons, hrt'])
      simp [findLevel, h0, ih h hlv hmin']

theorem findLevel_none {lv : MatchLv} {sc : Scope} :
    ∀ {routes : List RouteNode},
      (∀ rt ∈ routes, (rt.matches sc).1 ≠ lv) → findLevel lv sc routes = none := by
  intro routes
  induction routes with
  | nil => intro _; rfl
  | cons r rs ih =>
    intro h
    have h0 : (r.matches sc).1 ≠ lv := h r (List.mem_cons_self _ _)
    simp [findLevel, h0, ih (fun rt hrt => h rt (List.mem_cons_of_mem _ hrt))]

/-! Claim C1 — dispatch precedence -/

/-- Claim C1: for every router and http/websocket request, the first
node whose match is `FULL` receives the dispatch, with its contribution
merged into the scope beforehand; when no node matches `FULL`, the first
node that matched `PARTIAL` receives the dispatch with its contribution
merged — so a later `FULL` always beats an earlier `PARTIAL`. -/
theorem C1_dispatch_precedence (r : Router) (sc : Scope)
    (hty : sc.type = "http" ∨ sc.type = "websocket") :
    (∀ i rt, r.routes[i]? = some rt → (rt.matches sc).1 = MatchLv.fullMatch →
      (∀ rt' ∈ r.routes.take i, (rt'.matches sc).1 ≠ MatchLv.fullMatch) →
      routerCall r sc = RouterStep.toFull i (applyChild sc (rt.matches sc).2)) ∧
    ((∀ rt ∈ r.routes, (rt.matches sc).1 ≠ MatchLv.fullMatch) →
      ∀ i rt, r.routes[i]? = some rt → (rt.matches sc).1 = MatchLv.partMatch →
      (∀ rt' ∈ r.routes.take i, (rt'.matches sc).1 ≠ MatchLv.partMatch) →
      routerCall r sc = RouterStep.toPart i (applyChild sc (rt.matches sc).2)) := by
  constructor
  · intro i rt h hlv hmin
    simp [routerCall, findLevel_some h hlv hmin]
  · intro hnofull i rt h hlv hmin
    simp [routerCall, findLevel_none hnofull, findLevel_some h hlv hmin]

/-- Witness for claim C1: with a POST-only route registered before a
GET route at the same path, a GET request dispatches to the later
(full-matching) node; with only the POST route, the GET request falls
back to the partial match. -/
theorem C1_dispatch_precedence_witness :
    routerCall routerPrec (scHttp "/users") =
      RouterStep.toFull 1 (applyChild (scHttp "/users") (rGetUsers.matches (scHttp "/users")).2) ∧
    routerCall routerPart (scHttp "/users") =
      RouterStep.toPart 0 (applyChild (scHttp "/users") (rPostOnly.matches (scHttp "/users")).2) := by
  constructor
  · exact (C1_dispatch_precedence routerPrec (scHttp "/users") (Or.inl rfl)).1 1 rGetUsers
      rfl (by decide) (by decide)
  · exact (C1_dispatch_precedence routerPart (scHttp "/users") (Or.inl rfl)).2 (by decide)
      0 rPostOnly rfl (by decide) (by decide)

/-! Claim C2 — trailing-slash redirect fallback -/

/-- Claim C2, counterexample to the claim as stated: the claim covers
"http or websocket kind", but the source guards the redirect fallback
with `scope["type"] == "http"` only.  For a websocket request to
`"/users/"` with a websocket route `"/users"` registered and redirects
enabled, nothing matches, the toggled path `"/users"` matches, yet the
router falls through to the default close instead of redirecting. -/
theorem C2_counterexample :
    routerCall routerWs (scWs "/users/") = RouterStep.toDefault ∧
    routerWs.redirect_slashes = true ∧
    toggledPath "/users/" = "/users" ∧
    (wsUsers.matches (scWs "/users")).1 ≠ MatchLv.noMatch ∧
    (∀ rt ∈ routerWs.routes, (rt.matches (scWs "/users/")).1 = MatchLv.noMatch) := by
  refine ⟨by decide, rfl, by decide, by decide, by decide⟩

/-- Claim C2 (amended to http requests only): when no node matches at
any level and trailing-slash redirection is enabled, the router computes
the toggled-slash variant of the path; if the variant is non-empty (the
bare root `"/"` toggles to the empty string and is skipped) and any node
matches the variant at any level, the router responds with a redirect
to the toggled path; otherwise the request falls through to the
default/not-found handling. -/
theorem C2_redirect_fallback (r : Router) (sc : Scope)
    (hty : sc.type = "http") (hrs : r.redirect_slashes = true)
    (hnone : ∀ rt ∈ r.routes, (rt.matches sc).1 = MatchLv.noMatch) :
    (toggledPath sc.path ≠ "" →
      (∃ rt ∈ r.routes,
        (rt.matches { sc with path := toggledPath sc.path }).1 ≠ MatchLv.noMatch) →
      routerCall r sc = RouterStep.toRedirect (toggledPath sc.path)) ∧
    ((∀ rt ∈ r.routes,
        (rt.matches { sc with path := toggledPath sc.path }).1 = MatchLv.noMatch) →
      routerCall r sc = RouterStep.toDefault) ∧
    (sc.path = "/" → routerCall r sc = RouterStep.toDefault) := by
  have hfull : findLevel MatchLv.fullMatch sc r.routes = none :=
    findLevel_none (fun rt hrt => by rw [hnone rt hrt]; exact fun hc => by cases hc)
  have hpart : findLevel MatchLv.partMatch sc r.routes = none :=
    findLevel_none (fun rt hrt => by rw [hnone rt hrt]; exact fun hc => by cases hc)
  have hlife : ¬ sc.type = "lifespan" := by
    rw [hty]
    decide
  have hcond1 : (decide (sc.type = "http") && r.redirect_slashes) = true := by
    simp [hty, hrs]
  refine ⟨?_, ?_, ?_⟩
  · intro hne hsome
    obtain ⟨rt, hmem, hrt⟩ := hsome
    have hany : (r.routes.any (fun rt =>
        (rt.matches { sc with path := toggledPath sc.path }).1 ≠ MatchLv.noMatch)) = true :=
      List.any_eq_true.mpr ⟨rt, hmem, by simpa using hrt⟩
    simp only [routerCall, hfull, hpart, hcond1, if_true, Bool.and_eq_true]
    rw [if_pos ⟨by simpa using hne, hany⟩]
  · intro hall
    have hany : (r.routes.any (fun rt =>
        (rt.matches { sc with path := toggledPath sc.path }).1 ≠ MatchLv.noMatch)) = false := by
      rw [List.any_eq_false]
      intro rt hrt
      simp [hall rt hrt]
    simp only [routerCall, hfull, hpart, hcond1, if_true, Bool.and_eq_true, hany]
    rw [if_neg (by simp), if_neg hlife]
  · intro hroot
    have hrp : toggledPath sc.path = "" := by
      rw [hroot]
      decide
    simp only [routerCall, hfull, hpart, hcond1, if_true, Bool.and_eq_true, hrp]
    rw [if_neg (by simp), if_neg hlife]

/-- Witness for the amended claim C2: `"/users"` registered, a GET to
`"/users/"` redirects to `"/users"`; a GET to an entirely unmatched
`"/nothing/"` does not redirect; a GET to `"/"` does not redirect. -/
theorem C2_redirect_fallback_witness :
    routerCall routerGet (scHttp "/users/") = RouterStep.toRedirect "/users" ∧
    routerCall routerGet (scHttp "/nothing/") = RouterStep.toDefault ∧
    routerCall routerGet (scHttp "/") = RouterStep.toDefault := by
  refine ⟨?_, ?_, ?_⟩
  · exact (C2_redirect_fallback routerGet (scHttp "/users/") rfl rfl (by decide)).1
      (by decide)
      ⟨rGetUsers, List.mem_singleton.mpr rfl, by decide⟩
  · exact (C2_redirect_fallback routerGet (scHttp "/nothing/") rfl rfl (by decide)).2.1
      (by decide)
  · exact (C2_redirect_fallback routerGet (scHttp "/") rfl rfl (by decide)).2.2 rfl

/-! Claim C3 — path matches, method does not: 405 never 404 -/

/-- Claim C3, counterexample to the claim as stated: a route declared
with an *empty* allowed-methods set stores the empty set, which is falsy
in `if self.methods and ...`, so a request whose method is (vacuously)
not in the set still yields `FULL`, not `PARTIAL`. -/
theorem C3_counterexample :
    storedMethods true (some []) = some [] ∧
    ((RouteNode.route [Tok.lit "/x".data] 0 "x" (some [])).matches (scHttp "/x")).1 =
      MatchLv.fullMatch ∧
    "GET" ∉ ([] : List String) := by
  refine ⟨rfl, by decide, by decide⟩

/-- Claim C3 (amended to non-empty declared method sets): when the
stored allowed-methods set is non-empty, a path-matching request with a
method outside the set yields `PARTIAL` with the extracted parameters
and endpoint in the contribution; and when no node of the surrounding
router matches `FULL` and this route is the first `PARTIAL`, the router
dispatches to it and the dispatch produces the method-not-allowed
outcome — a typed 405 error under a surrounding application, a plain
405 response standalone — not the not-found outcome. -/
theorem C3_method_not_allowed
    (toks : List Tok) (eid : Nat) (nm : String) (msU : List String)
    (sc : Scope) (mp : List (String × String))
    (hty : sc.type = "http") (hne : msU ≠ [])
    (hm : matchToks toks sc.path.data = some mp)
    (hmeth : sc.method ∉ msU) :
    (RouteNode.route toks eid nm (some msU)).matches sc =
      (MatchLv.partMatch,
        { endpoint := some eid, path_params := some (updBatch sc.path_params mp) }) ∧
    (∀ (r : Router) i, r.routes[i]? = some (RouteNode.route toks eid nm (some msU)) →
      (∀ rt' ∈ r.routes, (rt'.matches sc).1 ≠ MatchLv.fullMatch) →
      (∀ rt' ∈ r.routes.take i, (rt'.matches sc).1 ≠ MatchLv.partMatch) →
      routerCall r sc = RouterStep.toPart i
        (applyChild sc ((RouteNode.route toks eid nm (some msU)).matches sc).2) ∧
      (RouteNode.route toks eid nm (some msU)).call
          (applyChild sc ((RouteNode.route toks eid nm (some msU)).matches sc).2) =
        (if sc.hasApp then CallOutcome.raise405 else CallOutcome.send405)) := by
  have htr : methodsTruthy (some msU) = true := by
    simp [methodsTruthy, hne]
  have hcont : msU.contains sc.method = false := by
    simpa using hmeth
  have hmatch : (RouteNode.route toks eid nm (some msU)).matches sc =
      (MatchLv.partMatch,
        { endpoint := some eid, path_params := some (updBatch sc.path_params mp) }) := by
    simp [RouteNode.matches, routeMatches, hty, hm, htr, hcont, hmeth]
  refine ⟨hmatch, ?_⟩
  intro r i hri hnofull hminp
  have hstep := findLevel_some hri (by rw [hmatch]) hminp
  constructor
  · simp [routerCall, findLevel_none hnofull, hstep]
  · simp [RouteNode.call, htr, hcont, applyChild, hmeth]

/-- Witness for the amended claim C3: the POST-only `"/users"` route
alone in a router, receiving a GET, is dispatched as the partial
fallback and produces the standalone 405 response. -/
theorem C3_method_not_allowed_witness :
    rPostOnly.matches (scHttp "/users") =
      (MatchLv.partMatch, { endpoint := some 1, path_params := some [] }) ∧
    routerCall routerPart (scHttp "/users") =
      RouterStep.toPart 0 (applyChild (scHttp "/users") (rPostOnly.matches (scHttp "/users")).2) ∧
    rPostOnly.call (applyChild (scHttp "/users") (rPostOnly.matches (scHttp "/users")).2) =
      CallOutcome.send405 := by
  have h := C3_method_not_allowed [Tok.lit "/users".data] 1 "p" ["POST"]
    (scHttp "/users") [] rfl (by decide) (by decide) (by decide)
  have h2 := h.2 routerPart 0 rfl (by decide) (by decide)
  exact ⟨h.1, h2.1, by simpa using h2.2⟩

/-! Prepending a slash to a character-list string -/

theorem slash_append (s : List Char) :
    ("/" : String) ++ String.mk s = String.mk ('/' :: s) := by
  have h : (("/" : String) ++ String.mk s).data = '/' :: s := by
    rw [String.data_append]
    rfl
  conv_rhs => rw [← h]

/-! Claim C8 — lifespan handshake -/

theorem runHandlers_first_err :
    ∀ {l : List (Option String)} {i : Nat} {d : String},
      (∀ j, j < i → l[j]? = some none) → l[i]? = some (some d) →
      runHandlers l = (i + 1, some d) := by
  intro l
  induction l with
  | nil =>
    intro i d _ h
    simp at h
  | cons x rest ih =>
    intro i d hpre h
    cases i with
    | zero =>
      simp only [List.getElem?_cons_zero] at h
      injection h with h
      subst h
      rfl
    | succ i =>
      have h0 : x = none := by
        have := hpre 0 (Nat.succ_pos i)
        simp only [List.getElem?_cons_zero] at this
        injection this
      subst h0
      simp only [List.getElem?_cons_succ] at h
      have hpre' : ∀ j, j < i → rest[j]? = some none := by
        intro j hj
        have := hpre (j + 1) (Nat.succ_lt_succ hj)
        simpa using this
      simp [runHandlers, ih hpre' h]

theorem runHandlers_all_ok :
    ∀ {l : List (Option String)}, (∀ x ∈ l, x = none) →
      runHandlers l = (l.length, none) := by
  intro l
  induction l with
  | nil => intro _; rfl
  | cons x rest ih =>
    intro h
    have h0 : x = none := h x (List.mem_cons_self _ _)
    subst h0
    simp [runHandlers, ih (fun y hy => h y (List.mem_cons_of_mem _ hy))]

/-- Claim C8, counterexample to the claim as stated: with no startup
handlers (all of them trivially succeed) and one failing shutdown
handler, the shutdown handler's failure propagates before the
shutdown-complete signal is sent — the claim's unconditional "shutdown
handlers run in registration order followed by a shutdown-complete
signal" does not hold. -/
theorem C8_counterexample :
    (∀ x ∈ ([] : List (Option String)), x = none) ∧
    (lifespanCall [] [some "boom"]).shutdownRan = 1 ∧
    LMsg.shutdownComplete ∉ (lifespanCall [] [some "boom"]).sent ∧
    (lifespanCall [] [some "boom"]).raised = some "boom" := by
  refine ⟨by simp, by decide, by decide, by decide⟩

/-- Claim C8 (amended): after the startup signal the startup handlers
run sequentially in registration order; if the handler at index `i` is
the first to fail, exactly the handlers up to and including it have run,
a startup-failure signal carrying the failure detail is the only message
sent, and the failure is re-raised; if every startup handler succeeds,
all of them run and a startup-complete signal is sent, after which the
shutdown handlers run in registration order and, when they all succeed,
a shutdown-complete signal follows. -/
theorem C8_lifespan_protocol (su sd : List (Option String)) :
    (∀ i d, (∀ j, j < i → su[j]? = some none) → su[i]? = some (some d) →
      lifespanCall su sd =
        { sent := [LMsg.startupFailed d], startupRan := i + 1, shutdownRan := 0,
          raised := some d }) ∧
    ((∀ x ∈ su, x = none) →
      (lifespanCall su sd).sent.head? = some LMsg.startupComplete ∧
      (lifespanCall su sd).startupRan = su.length ∧
      ((∀ x ∈ sd, x = none) →
        lifespanCall su sd =
          { sent := [LMsg.startupComplete, LMsg.shutdownComplete], startupRan := su.length,
            shutdownRan := sd.length, raised := none })) := by
  constructor
  · intro i d hpre h
    simp [lifespanCall, runHandlers_first_err hpre h]
  · intro hsu
    have hs := runHandlers_all_ok hsu
    refine ⟨?_, ?_, ?_⟩
    · cases hd : runHandlers sd with
      | mk ranD errD =>
        cases errD <;> simp [lifespanCall, hs, hd]
    · cases hd : runHandlers sd with
      | mk ranD errD =>
        cases errD <;> simp [lifespanCall, hs, hd]
    · intro hsd
      simp [lifespanCall, hs, runHandlers_all_ok hsd]

/-- Witness for the amended claim C8: a failing second startup handler
stops the third from running and sends only the failure signal; with
all handlers succeeding, the two completion signals are sent in order
and every handler runs. -/
theorem C8_lifespan_protocol_witness :
    lifespanCall [none, some "boom", none] [] =
      { sent := [LMsg.startupFailed "boom"], startupRan := 2, shutdownRan := 0,
        raised := some "boom" } ∧
    lifespanCall [none] [none, none] =
      { sent := [LMsg.startupComplete, LMsg.shutdownComplete], startupRan := 1,
        shutdownRan := 2, raised := none } := by
  constructor
  · exact (C8_lifespan_protocol [none, some "boom", none] []).1 1 "boom"
      (by decide) (by decide)
  · exact ((C8_lifespan_protocol [none] [none, none]).2 (by decide)).2.2 (by decide)

/-! Claim C9 — default methods for function endpoints -/

/-- Claim C9: a leaf route built from a plain function or method
endpoint with no methods argument stores exactly the set
`{"GET", "HEAD"}`; a route built from a class endpoint with no methods
argument stores no set at all, so its match is never `PARTIAL` and no
method is rejected. -/
theorem C9_default_methods :
    storedMethods true none = some ["GET", "HEAD"] ∧
    (∀ m, m ∈ (storedMethods true none).getD [] ↔ (m = "GET" ∨ m = "HEAD")) ∧
    storedMethods false none = none ∧
    (∀ toks eid nm sc, ((mkRoute toks eid nm false none).matches sc).1 ≠ MatchLv.partMatch) := by
  have h1 : storedMethods true none = some ["GET", "HEAD"] := by decide
  refine ⟨h1, ?_, rfl, ?_⟩
  · intro m
    rw [h1]
    simp
  · intro toks eid nm sc
    simp only [mkRoute, RouteNode.matches, routeMatches]
    have hsm : storedMethods false none = none := rfl
    rw [hsm]
    by_cases hty : sc.type = "http"
    · simp only [hty, if_true]
      cases matchToks toks sc.path.data <;> simp [methodsTruthy]
    · simp [hty]

/-! Claim C10 — a mount prefix requires a following slash -/

theorem matchToks_path_param (n : String) (s : List Char) :
    matchToks [Tok.param n Conv.path] s = some [(n, String.mk s)] := by
  have hr : s.takeWhile Conv.path.runChar = s :=
    List.takeWhile_eq_self_iff.mpr (fun x _ => rfl)
  simp only [matchToks, capsList, hr, Conv.minLen, Nat.sub_zero, List.drop_length,
    List.range_succ_eq_map, List.map_cons, firstSome]
  simp [matchToks]

theorem matchToks_mount_lit (pre s : List Char) :
    matchToks (mountToks [Tok.lit pre]) (pre ++ '/' :: s) = some [("path", String.mk s)] := by
  have h1 : isPre pre (pre ++ '/' :: s) = true := isPre_append pre _
  simp only [mountToks, List.cons_append, List.nil_append, matchToks, h1, if_true,
    List.drop_left]
  have h2 : isPre ['/'] ('/' :: s) = true := by
    simp [isPre]
  simp only [h2, if_true, List.length_cons, List.length_nil, List.drop_succ_cons,
    List.drop_zero]
  exact matchToks_path_param "path" s

/-- Claim C10: a mount with a non-empty literal prefix does not match
the bare prefix path — its compiled pattern requires a `/` immediately
after the prefix — and matches exactly the paths of the form
`prefix ++ "/" ++ anything`, yielding `FULL` with residual path `"/"`
plus the captured rest. -/
theorem C10_mount_prefix_boundary (pre : List Char) (nm : Option String)
    (sub : Option (List RouteNode)) (appId : Nat) (hne : pre ≠ []) :
    (∀ sc : Scope, (sc.type = "http" ∨ sc.type = "websocket") →
      (((RouteNode.mount [Tok.lit pre] nm sub appId).matches sc).1 = MatchLv.noMatch ↔
        ¬ ∃ s, sc.path.data = pre ++ '/' :: s)) ∧
    (∀ sc : Scope, (sc.type = "http" ∨ sc.type = "websocket") →
      ∀ s, sc.path.data = pre ++ '/' :: s →
      ((RouteNode.mount [Tok.lit pre] nm sub appId).matches sc).1 = MatchLv.fullMatch ∧
      ((RouteNode.mount [Tok.lit pre] nm sub appId).matches sc).2.path =
        some (String.mk ('/' :: s))) := by
  have hfull : ∀ sc : Scope, (sc.type = "http" ∨ sc.type = "websocket") →
      ∀ s, sc.path.data = pre ++ '/' :: s →
      ((RouteNode.mount [Tok.lit pre] nm sub appId).matches sc).1 = MatchLv.fullMatch ∧
      ((RouteNode.mount [Tok.lit pre] nm sub appId).matches sc).2.path =
        some (String.mk ('/' :: s)) := by
    intro sc hty s hs
    have hm : matchToks (mountToks [Tok.lit pre]) sc.path.data =
        some [("path", String.mk s)] := by
      rw [hs]
      exact matchToks_mount_lit pre s
    constructor
    · simp [RouteNode.matches, mountMatches, if_pos hty, hm]
    · simp only [RouteNode.matches, mountMatches, if_pos hty, hm, lookupA_head,
        Option.getD_some]
      rw [slash_append]
  refine ⟨?_, hfull⟩
  intro sc hty
  constructor
  · intro hnone hex
    obtain ⟨s, hs⟩ := hex
    have := (hfull sc hty s hs).1
    rw [this] at hnone
    cases hnone
  · intro hnex
    cases hm : matchToks (mountToks [Tok.lit pre]) sc.path.data with
    | none => simp [RouteNode.matches, mountMatches, if_pos hty, hm]
    | some mp =>
      exfalso
      have hint := matchToks_sound hm
      have hgen : ∀ q, Interleaves (mountToks [Tok.lit pre]) mp q →
          ∃ v, q = pre ++ '/' :: v := by
        intro q hq
        cases hq with
        | lit _ h1 =>
          cases h1 with
          | lit _ h2 =>
            cases h2 with
            | par _ _ v h3 =>
              cases h3 with
              | nil => exact ⟨v, by simp⟩
      exact hnex (hgen sc.path.data hint)

/-- Witness for claim C10: the `"/api"` mount does not match the bare
path `"/api"`, while `"/api/"` matches fully with residual path `"/"`. -/
theorem C10_mount_prefix_boundary_witness :
    (mApiFix.matches (scHttp "/api")).1 = MatchLv.noMatch ∧
    (mApiFix.matches (scHttp "/api/")).1 = MatchLv.fullMatch ∧
    (mApiFix.matches (scHttp "/api/")).2.path = some "/" := by
  have h := C10_mount_prefix_boundary "/api".data (some "api")
    (some [RouteNode.route [Tok.lit "/items".data] 2 "items" none]) 9 (by decide)
  refine ⟨?_, ?_, ?_⟩
  · refine (h.1 (scHttp "/api") (Or.inl rfl)).mpr ?_
    rintro ⟨s, hs⟩
    have hs2 : "/api".data ++ ([] : List Char) = "/api".data ++ '/' :: s := by
      rw [List.append_nil]
      exact hs
    cases List.append_cancel_left hs2
  · exact (h.2 (scHttp "/api/") (Or.inl rfl) [] (by decide)).1
  · exact (h.2 (scHttp "/api/") (Or.inl rfl) [] (by decide)).2

/-! Claim C6 — mount matching, residual path and root path -/

/-- Claim C6: a mount whose pattern (`prefix + "/{path:rest}"`) matches
an http/websocket request path reports `FULL` irrespective of the
request method; the contribution's residual path is `"/"` plus the
captured rest, its root path is the accumulated root path plus the
consumed prefix portion (the request path minus the residual), and its
parameters are the prefix captures with the rest capture popped. -/
theorem C6_mount_matches
    (preToks : List Tok) (nm : Option String) (sub : Option (List RouteNode)) (appId : Nat)
    (sc : Scope) (ps1 : List (String × String)) (rest : List Char)
    (hty : sc.type = "http" ∨ sc.type = "websocket")
    (hp : "path" ∉ tokNames preToks)
    (hm : matchToks (mountToks preToks) sc.path.data =
      some (ps1 ++ [("path", String.mk rest)])) :
    sc.path.data =
      sc.path.data.take (sc.path.data.length - (rest.length + 1)) ++ '/' :: rest ∧
    (RouteNode.mount preToks nm sub appId).matches sc =
      (MatchLv.fullMatch,
        { path_params := some (updBatch sc.path_params ps1)
          app_root_path := some (sc.app_root_path.getD sc.root_path)
          root_path := some (sc.root_path ++
            String.mk (sc.path.data.take (sc.path.data.length - (rest.length + 1))))
          path := some (String.mk ('/' :: rest))
          endpoint := some appId }) ∧
    (∀ meth, (RouteNode.mount preToks nm sub appId).matches { sc with method := meth } =
      (RouteNode.mount preToks nm sub appId).matches sc) := by
  have hint := matchToks_sound hm
  obtain ⟨ps1', ps2, s1, s2, hps, hq, h1, h2⟩ := interleaves_append hint
  -- invert the tail `[lit "/", param "path" path]`
  obtain ⟨v, hs2, hps2⟩ : ∃ v, s2 = '/' :: v ∧ ps2 = [("path", String.mk v)] := by
    cases h2 with
    | lit _ h3 =>
      cases h3 with
      | par _ _ v h4 =>
        cases h4 with
        | nil => exact ⟨v, by simp, by simp⟩
  subst hs2 hps2
  obtain ⟨hps1, hrv⟩ := List.append_inj' hps (by simp)
  have hveq : rest = v := by
    have h0 : ("path", String.mk rest) = ("path", String.mk v) := by
      injection hrv
    have h1 : String.mk rest = String.mk v := congrArg Prod.snd h0
    injection h1
  subst hveq
  subst hps1
  have hdom : domOf ps1 = tokNames preToks := interleaves_names h1
  have hnp : "path" ∉ domOf ps1 := by rw [hdom]; exact hp
  have htake : sc.path.data.take (sc.path.data.length - (rest.length + 1)) = s1 := by
    conv_lhs => rw [hq]
    have hsub : (s1 ++ '/' :: rest).length - (rest.length + 1) = s1.length := by
      simp
    rw [hsub, List.take_left]
  have hlook : lookupA "path" (ps1 ++ [("path", String.mk rest)]) = some (String.mk rest) := by
    rw [lookupA_append_right hnp, lookupA_head]
  have hfilter : (ps1 ++ [("path", String.mk rest)]).filter (fun kv => kv.1 ≠ "path") = ps1 := by
    rw [List.filter_append]
    have hf1 : ps1.filter (fun kv => kv.1 ≠ "path") = ps1 := by
      apply List.filter_eq_self.mpr
      intro kv hkv
      have hk : kv.1 ∈ domOf ps1 := by
        simp only [domOf, List.mem_map]
        exact ⟨kv, hkv, rfl⟩
      rw [hdom] at hk
      simp only [decide_eq_true_eq]
      intro he
      exact hp (he ▸ hk)
    rw [hf1]
    simp
  have hremdata : ("/" ++ String.mk rest).data = '/' :: rest := by
    rw [String.data_append]
    rfl
  have hrem2 : ("/" ++ String.mk rest) = String.mk ('/' :: rest) := by
    conv_rhs => rw [← hremdata]
  refine ⟨by rw [htake]; exact hq, ?_, fun meth => rfl⟩
  simp only [RouteNode.matches, mountMatches, if_pos hty, hm, hlook, hfilter, Option.getD_some,
    hremdata, hrem2, List.length_cons]

/-- Witness for claim C6: the `"/api"` mount matches `"/api/items"`
with residual path `"/items"`, root-path contribution `"/api"`, full
match level, empty parameters, and the sub-application as endpoint. -/
theorem C6_mount_matches_witness :
    mApiFix.matches (scHttp "/api/items") =
      (MatchLv.fullMatch,
        { path_params := some [], app_root_path := some "", root_path := some "/api",
          path := some "/items", endpoint := some 9 }) := by
  have h := (C6_mount_matches [Tok.lit "/api".data] (some "api")
    (some [RouteNode.route [Tok.lit "/items".data] 2 "items" none]) 9
    (scHttp "/api/items") [] "items".data (Or.inl rfl) (by decide) (by decide)).2.1
  exact h.trans (by decide)

/-! Claim C7 — nested reverse lookup through a named mount -/

/-- Claim C7: a reverse lookup on a named mount with a name of the form
`"<mount-name>:<child-name>"` strips the qualifier, substitutes the
known parameters into the mount's prefix template (with the `path`
parameter blanked, re-attaching a literally supplied `path` to the
leftovers), delegates the residual name and leftover parameters to the
nested nodes, and prefixes the first success with the resolved,
slash-stripped prefix; when no nested node resolves, the lookup fails
with `NoMatchFound`.  Nested nodes are tried in registration order,
first success first. -/
theorem C7_mount_nested_reverse (f : Nat) (preToks : List Tok) (mn cn : String)
    (sub : Option (List RouteNode)) (appId : Nat) (params : List (String × String)) :
    (upfAux (f + 1) (Sum.inl (RouteNode.mount preToks (some mn) sub appId)) (mn ++ ":" ++ cn)
        params =
      (upfAux f (Sum.inr (sub.getD [])) cn
          (match lookupA "path" params with
           | some v => updOne (replParams (formatToks (mountToks preToks))
               (updOne params ("path", ""))).2 ("path", v)
           | none => (replParams (formatToks (mountToks preToks))
               (updOne params ("path", ""))).2)).map
        (fun u => { path := rstripSlash (String.mk (replParams (formatToks (mountToks preToks))
            (updOne params ("path", ""))).1) ++ u.path, protocol := u.protocol })) ∧
    (∀ (r : RouteNode) (rs : List RouteNode) (name : String) (u : URLPath),
      upfAux f (Sum.inl r) name params = some u →
      upfAux (f + 1) (Sum.inr (r :: rs)) name params = some u) ∧
    (∀ (r : RouteNode) (rs : List RouteNode) (name : String),
      upfAux f (Sum.inl r) name params = none →
      upfAux (f + 1) (Sum.inr (r :: rs)) name params =
        upfAux f (Sum.inr rs) name params) := by
  have hdata : (mn ++ ":" ++ cn).data = (mn.data ++ [':']) ++ cn.data := by
    rw [String.data_append, String.data_append]
  refine ⟨?_, ?_, ?_⟩
  · have hne : ¬ (some (mn ++ ":" ++ cn) = some mn) := by
      intro h
      have hd := congrArg String.data (Option.some.injEq .. ▸ h)
      rw [hdata] at hd
      have := congrArg List.length hd
      simp at this
    have hpre : isPre ((mn ++ ":").data) ((mn ++ ":" ++ cn).data) = true := by
      rw [hdata]
      apply isPre_iff.mpr
      refine ⟨cn.data, ?_⟩
      rw [String.data_append]
    have hrem : String.mk ((mn ++ ":" ++ cn).data.drop (mn.data.length + 1)) = cn := by
      rw [hdata]
      have hlen : mn.data.length + 1 = (mn.data ++ [':']).length := by simp
      rw [hlen, List.drop_left]
    simp only [upfAux]
    rw [if_neg (by
      rintro ⟨-, h2, -⟩
      exact hne h2)]
    rw [if_pos (Or.inr (by simpa using hpre))]
    rw [hrem]
  · intro r rs name u h
    simp only [upfAux, h]
  · intro r rs name h
    simp only [upfAux, h]

/-- Witness for claim C7: the router holding the mount `"api"` over the
route `"items"` resolves `url_path_for("api:items")` to `"/api/items"`
over the http protocol. -/
theorem C7_mount_nested_reverse_witness :
    Router.url_path_for routerApi "api:items" [] =
      some { path := "/api/items", protocol := "http" } := by
  have h := (C7_mount_nested_reverse 2 [Tok.lit "/api".data] "api" "items"
    (some [RouteNode.route [Tok.lit "/items".data] 2 "items" none]) 9 []).1
  calc Router.url_path_for routerApi "api:items" []
      = upfAux 3 (Sum.inl mApiFix) "api:items" [] := by decide
    _ = some { path := "/api/items", protocol := "http" } := by
        rw [show ("api:items" : String) = "api" ++ ":" ++ "items" from by decide]
        exact h.trans (by decide)

/-! Claim C4 — match followed by reverse reproduces the path -/

/-- Claim C4, counterexample to the claim as stated: for the route
template `"/{a}/{b}"` and the request path `"/{b}/x"`, matching succeeds
with captures `a = "{b}"`, `b = "x"`, but `url_path_for` with the
route's own name and exactly those parameters returns `"/x/x"`, not the
original request path — the first substituted value is itself rewritten
by the second substitution. -/
theorem C4_counterexample :
    matchToks toksAB cexPath.data = some [("a", cexVal), ("b", "x")] ∧
    (RouteNode.route toksAB 0 "r" none).url_path_for "r" [("a", cexVal), ("b", "x")] =
      some { path := "/x/x", protocol := "http" } ∧
    ("/x/x" : String) ≠ cexPath := by
  refine ⟨by decide, by decide, by decide⟩

/-- Claim C4 (amended): for every leaf route and every request whose
path its compiled pattern matches, provided the template is well-formed
and no extracted parameter value contains a brace character, the node
matches (at some level) with exactly the captured parameters as its
contribution, and `url_path_for` with the route's own name and exactly
those parameters returns precisely the original request path. -/
theorem C4_match_reverse_roundtrip
    (toks : List Tok) (eid : Nat) (nm : String) (ms : Option (List String))
    (sc : Scope) (mp : List (String × String))
    (hwf : WFT toks) (hty : sc.type = "http") (hpp : sc.path_params = [])
    (hm : matchToks toks sc.path.data = some mp)
    (hvals : ∀ kv ∈ mp, braceFreeS kv.2) :
    ((RouteNode.route toks eid nm ms).matches sc).1 ≠ MatchLv.noMatch ∧
    ((RouteNode.route toks eid nm ms).matches sc).2.path_params = some mp ∧
    (RouteNode.route toks eid nm ms).url_path_for nm mp =
      some { path := sc.path, protocol := "http" } := by
  have hint := matchToks_sound hm
  have hnames : domOf mp = tokNames toks := interleaves_names hint
  have hnd : (domOf mp).Nodup := by rw [hnames]; exact hwf.1
  have hub : updBatch sc.path_params mp = mp := by rw [hpp]; exact updBatch_nil hnd
  refine ⟨?_, ?_, ?_⟩
  · simp only [RouteNode.matches, routeMatches, hty, if_true, hm]
    split <;> simp
  · simp only [RouteNode.matches, routeMatches, hty, if_true, hm]
    split <;> simp [hub]
  · have hrender : renderPartial mp toks = sc.path.data := by
      have := interleaves_render hint hwf.1 [] (by intro n _ h; cases h)
      simpa using this
    have hrepl : replParams (formatToks toks) mp = (sc.path.data, []) := by
      rw [replParams_complete hwf hvals (by rw [hnames]; exact fun x hx => hx) hnd, hrender]
    have hguard : (mp.map Prod.fst).toFinset = (tokNames toks).toFinset := by
      rw [show mp.map Prod.fst = domOf mp from rfl, hnames]
    simp [RouteNode.url_path_for, nodeFuel, upfAux, hguard, hrepl]

/-- Witness for the amended claim C4 at the route `"/users/{id}"` and
the request path `"/users/42"`. -/
theorem C4_roundtrip_witness :
    (RouteNode.route toksUsersId 0 "u" none).url_path_for "u" [("id", "42")] =
      some { path := "/users/42", protocol := "http" } :=
  (C4_match_reverse_roundtrip toksUsersId 0 "u" none (scHttp "/users/42") [("id", "42")]
    (by decide) rfl rfl (by decide) (by decide)).2.2

/-! Claim C5 — leaf reverse lookup succeeds exactly on name and
parameter-set agreement -/

/-- Claim C5, counterexample to the claim as stated: on the route
`"/{a}/{b}"` named `r`, the lookup `url_path_for("r", a = "{b}",
b = "z")` satisfies the success condition (right name, exactly the
placeholder names) and indeed succeeds — but it returns `"/z/z"`, not
the canonical format with every parameter substituted into its own
placeholder (which is `"/{b}/z"`): the sequential `str.replace` rewrites
the already-substituted value of `a` while substituting `b`. -/
theorem C5_counterexample :
    (RouteNode.route toksAB 0 "r" none).url_path_for "r" [("a", cexVal), ("b", "z")] =
      some { path := "/z/z", protocol := "http" } ∧
    String.mk (renderPartial [("a", cexVal), ("b", "z")] toksAB) =
      String.mk ['/', lbrace, 'b', rbrace, '/', 'z'] ∧
    ("/z/z" : String) ≠ String.mk ['/', lbrace, 'b', rbrace, '/', 'z'] := by
  refine ⟨by decide, by decide, by decide⟩

/-- Claim C5 (amended): a leaf route's `url_path_for` fails with
`NoMatchFound` exactly when the supplied name differs from the route's
name or the supplied parameter-name set differs from the template's
placeholder set; when both agree — and, for the shape of the result,
provided the template is well-formed, the keys distinct and no supplied
value contains a brace character — it succeeds with the canonical
format rendered with every parameter substituted into its own
placeholder, and `replace_params` leaves no parameter over (the
source's assertion). -/
theorem C5_route_url_path_for
    (toks : List Tok) (eid : Nat) (nm : String) (ms : Option (List String)) :
    (∀ name params, (name ≠ nm ∨ (domOf params).toFinset ≠ (tokNames toks).toFinset) →
      (RouteNode.route toks eid nm ms).url_path_for name params = none) ∧
    (∀ params, WFT toks → (domOf params).Nodup →
      (∀ kv ∈ params, braceFreeS kv.2) →
      (domOf params).toFinset = (tokNames toks).toFinset →
      (RouteNode.route toks eid nm ms).url_path_for nm params =
        some { path := String.mk (renderPartial params toks), protocol := "http" } ∧
      (replParams (formatToks toks) params).2 = []) := by
  constructor
  · intro name params h
    simp only [RouteNode.url_path_for, nodeFuel, upfAux]
    rw [if_neg]
    rintro ⟨h1, h2⟩
    rcases h with hn | hs
    · exact hn h1
    · exact hs h2
  · intro params hwf hnd hvals hset
    have hsub : ∀ x ∈ domOf params, x ∈ tokNames toks := by
      intro x hx
      have : x ∈ (domOf params).toFinset := List.mem_toFinset.mpr hx
      rw [hset] at this
      exact List.mem_toFinset.mp this
    have hrepl := replParams_complete hwf hvals hsub hnd
    have hset' : (params.map Prod.fst).toFinset = (tokNames toks).toFinset := hset
    constructor
    · simp [RouteNode.url_path_for, nodeFuel, upfAux, hset', hrepl]
    · rw [hrepl]

/-- Witness for claim C5 at the route `"/users/{id}"`: the lookup with a
wrong name fails, the lookup with the right name and exactly the
placeholder parameters returns `"/users/7"` with nothing left over. -/
theorem C5_route_url_path_for_witness :
    (RouteNode.route toksUsersId 0 "u" none).url_path_for "v" [("id", "7")] = none ∧
    (RouteNode.route toksUsersId 0 "u" none).url_path_for "u" [] = none ∧
    (RouteNode.route toksUsersId 0 "u" none).url_path_for "u" [("id", "7")] =
      some { path := String.mk (renderPartial [("id", "7")] toksUsersId), protocol := "http" } ∧
    (replParams (formatToks toksUsersId) [("id", "7")]).2 = [] := by
  refine ⟨?_, ?_, ?_, ?_⟩
  · exact (C5_route_url_path_for toksUsersId 0 "u" none).1 "v" [("id", "7")]
      (Or.inl (by decide))
  · exact (C5_route_url_path_for toksUsersId 0 "u" none).1 "u" []
      (Or.inr (by decide))
  · exact ((C5_route_url_path_for toksUsersId 0 "u" none).2 [("id", "7")]
      (by decide) (by decide) (by decide) (by decide)).1
  · exact ((C5_route_url_path_for toksUsersId 0 "u" none).2 [("id", "7")]
      (by decide) (by decide) (by decide) (by decide)).2

end Routing













